import Mathlib

/-!
Verification of the title-matching core of `cinema_checker.py`.

The embedding models titles as `List Char`.  Python string primitives are
modelled on their ASCII fragment: `str.lower` maps `A`-`Z` to `a`-`z`,
`str.strip`, `str.split` and the regex `\s` use the six ASCII whitespace
characters, and `string.punctuation` is the fixed ASCII set (codes 33-47,
58-64, 91-96, 123-126).  Scores, produced as Python floats by the source,
are modelled as rationals.

`difflib.SequenceMatcher(None, a, b).ratio()` is modelled faithfully:
the longest matching block is the earliest (in `a`, then in `b`) maximal
common run seeded on non-"popular" characters of `b` (the autojunk rule:
for `len(b) >= 200`, characters occurring more than `len(b)//100 + 1`
times are excluded from seeding), extended on both sides over arbitrary
equal characters; the total number of matched characters is the sum of
block sizes over the recursive left/right decomposition, and the ratio is
`2*M/(len(a)+len(b))` (`1` when both strings are empty).
-/

set_option maxRecDepth 100000

namespace CinemaChecker

/-- Whitespace as used by Python `str.strip`, `str.split` and the regex
`\s` (ASCII fragment): space, tab, newline, vertical tab, form feed,
carriage return. -/
def isWs (c : Char) : Bool :=
  c = ' ' || c = Char.ofNat 9 || c = Char.ofNat 10 || c = Char.ofNat 11 ||
    c = Char.ofNat 12 || c = Char.ofNat 13

/-- Membership in Python `string.punctuation` (the 32 ASCII punctuation
characters, codes 33-47, 58-64, 91-96, 123-126). -/
def isPunct (c : Char) : Bool :=
  (33 ≤ c.toNat && c.toNat ≤ 47) || (58 ≤ c.toNat && c.toNat ≤ 64) ||
    (91 ≤ c.toNat && c.toNat ≤ 96) || (123 ≤ c.toNat && c.toNat ≤ 126)

/-- ASCII fragment of Python `str.lower`. -/
def pyLower (c : Char) : Char :=
  if 65 ≤ c.toNat && c.toNat ≤ 90 then Char.ofNat (c.toNat + 32) else c

/-- Remove trailing whitespace. -/
def dropTrailWs (l : List Char) : List Char :=
  (l.reverse.dropWhile isWs).reverse

/-- Python `str.strip()`: remove leading and trailing whitespace. -/
def pyStrip (l : List Char) : List Char :=
  dropTrailWs (l.dropWhile isWs)

/-- `title.lower().strip()`, the comparison key of the exact-match branch
in `find_matches` (cinema_checker.py line 351). -/
def lowerStrip (t : List Char) : List Char :=
  pyStrip (t.map pyLower)

/-- `normalized.translate(str.maketrans('', '', string.punctuation))`:
delete every punctuation character (cinema_checker.py line 399). -/
def removePunct (l : List Char) : List Char :=
  l.filter (fun c => !isPunct c)

/-- `re.sub(r'\s+', ' ', s)`: replace each maximal whitespace run by a
single space (cinema_checker.py line 400).  Runs at either end become a
single boundary space; no trimming happens here. -/
def collapseWs : List Char → List Char
  | [] => []
  | [c] => if isWs c then [' '] else [c]
  | c :: d :: cs =>
    if isWs c then
      (if isWs d then collapseWs (d :: cs) else ' ' :: collapseWs (d :: cs))
    else c :: collapseWs (d :: cs)

/-- `normalize_title` (cinema_checker.py lines 396-401): lower-case, strip
the ends, delete punctuation, then collapse whitespace runs.  Note the
strip happens before punctuation removal, and nothing trims the result. -/
def normalize_title (title : List Char) : List Char :=
  collapseWs (removePunct (pyStrip (title.map pyLower)))

/-- Accumulator worker for Python `str.split()`. -/
def pySplitAux : List Char → List Char → List (List Char)
  | [], acc => if acc.isEmpty then [] else [acc.reverse]
  | c :: cs, acc =>
    if isWs c then
      (if acc.isEmpty then pySplitAux cs [] else acc.reverse :: pySplitAux cs [])
    else pySplitAux cs (c :: acc)

/-- Python `str.split()` with no argument: the maximal non-whitespace
runs, with no empty tokens. -/
def pySplit (l : List Char) : List (List Char) :=
  pySplitAux l []

/-- Python `' '.join(words)`. -/
def joinSpace : List (List Char) → List Char
  | [] => []
  | [w] => w
  | w :: ws => w ++ ' ' :: joinSpace ws

/-- The stop-list of `remove_articles` (cinema_checker.py line 405). -/
def articles : List (List Char) :=
  ["the", "a", "an", "il", "la", "lo", "i", "le", "gli", "un", "una", "uno"].map String.data

/-- `remove_articles` (cinema_checker.py lines 403-408): split on
whitespace, drop every token that is in the stop-list (wherever it
occurs), and re-join with single spaces. -/
def remove_articles (title : List Char) : List Char :=
  joinSpace ((pySplit title).filter (fun w => decide (w ∉ articles)))

/-- The set comprehension `{w for w in title.split() if len(w) > 2}`
(cinema_checker.py lines 412-413), modelled as a deduplicated list. -/
def keywordTokens (title : List Char) : List (List Char) :=
  ((pySplit title).filter (fun w => decide (2 < w.length))).dedup

/-- `keyword_matching` (cinema_checker.py lines 410-422): `0` when either
token set is empty or the intersection is empty, otherwise
`|intersection| / max(|set1|, |set2|)`. -/
def keyword_matching (title1 title2 : List Char) : ℚ :=
  if (keywordTokens title1).isEmpty || (keywordTokens title2).isEmpty then 0
  else if ((keywordTokens title1).filter
      (fun w => decide (w ∈ keywordTokens title2))).isEmpty then 0
  else mkRat ((keywordTokens title1).filter
      (fun w => decide (w ∈ keywordTokens title2))).length
    (max (keywordTokens title1).length (keywordTokens title2).length)

/-- The autojunk rule of `difflib.SequenceMatcher`: when `len(b) >= 200`,
the characters of `b` occurring more than `len(b)//100 + 1` times cannot
seed a matching run. -/
def popularChars (b : List Char) : List Char :=
  if 200 ≤ b.length then
    b.dedup.filter (fun c => decide (b.length / 100 + 1 < b.count c))
  else []

/-- Length of the common run starting at the two list heads, seeded only
on characters of `b` outside the popular set (the `b2j`/`j2len` dynamic
program of `SequenceMatcher.find_longest_match`). -/
def commonRun (pop : List Char) : List Char → List Char → Nat
  | x :: xs, y :: ys =>
    if x = y ∧ y ∉ pop then commonRun pop xs ys + 1 else 0
  | _, _ => 0

/-- Length of the plain common run starting at the two list heads (used by
the extension loops, which ignore the popular set). -/
def commonPrefixLen : List Char → List Char → Nat
  | x :: xs, y :: ys => if x = y then commonPrefixLen xs ys + 1 else 0
  | _, _ => 0

/-- The seeded best block of `find_longest_match`: the longest common
non-popular run, and among runs of that length the one starting earliest
in `a`, then earliest in `b` (realised by recording the first strict
improvement in start order). -/
def bestSeed (pop a b : List Char) : Nat × Nat × Nat :=
  (List.range a.length).foldl (fun best i =>
    (List.range b.length).foldl (fun best j =>
      let k := commonRun pop (a.drop i) (b.drop j)
      if best.2.2 < k then (i, j, k) else best) best) (0, 0, 0)

/-- `find_longest_match`: the seeded best block, extended left and then
right over arbitrary equal characters (with an empty junk set the junk
extension loops never fire, and the plain extension loops also run over
popular characters). -/
def findLongestBlock (pop a b : List Char) : Nat × Nat × Nat :=
  let s := bestSeed pop a b
  let i := s.1
  let j := s.2.1
  let k := s.2.2
  let lext := commonPrefixLen ((a.take i).reverse) ((b.take j).reverse)
  let rext := commonPrefixLen (a.drop (i + k)) (b.drop (j + k))
  (i - lext, j - lext, k + lext + rext)

/-- Total size of the matching blocks of `get_matching_blocks`: recursive
left/right decomposition around the longest block.  The fuel only bounds
the recursion depth: each recursive call strictly shrinks
`a.length + b.length` (by at least the matched block on each side), so
`a.length + b.length + 1` is always sufficient. -/
def matchSum (pop : List Char) : Nat → List Char → List Char → Nat
  | 0, _, _ => 0
  | fuel + 1, a, b =>
    let t := findLongestBlock pop a b
    let i := t.1
    let j := t.2.1
    let k := t.2.2
    if k = 0 then 0
    else
      matchSum pop fuel (a.take i) (b.take j) + k +
        matchSum pop fuel (a.drop (i + k)) (b.drop (j + k))

/-- `difflib.SequenceMatcher(None, a, b).ratio()` as a rational:
`2*M / (len(a)+len(b))`, and `1` when both strings are empty (built with
`mkRat`, which is the exact value of the Python float division here). -/
def ratioQ (a b : List Char) : ℚ :=
  if a.length + b.length = 0 then 1
  else mkRat (2 * matchSum (popularChars b) (a.length + b.length + 1) a b)
    (a.length + b.length)

/-- Python `max` on two numbers: the second argument exactly when it is
strictly greater (kernel-computable, unlike the lattice `max` of `ℚ`). -/
def pyMax (x y : ℚ) : ℚ :=
  if x < y then y else x

/-- `advanced_title_matching` (cinema_checker.py lines 384-394): the
maximum of the base score (raw ratio of the two normalized titles, line
390), the clean score (ratio after article removal, line 391) and the
keyword score (line 392); the three-argument Python `max` of line 394 is
written as nested binary `pyMax`. -/
def advanced_title_matching (title1 title2 : List Char) : ℚ :=
  pyMax (ratioQ (normalize_title title1) (normalize_title title2))
    (pyMax
      (ratioQ (remove_articles (normalize_title title1))
        (remove_articles (normalize_title title2)))
      (keyword_matching (normalize_title title1) (normalize_title title2)))

/-- The per-pair score computed inside `find_matches` (cinema_checker.py
lines 350-356): `1.0` when the lower-cased, stripped titles are equal,
otherwise the advanced fuzzy score. -/
def matchScore (watchlist_title cinema_title : List Char) : ℚ :=
  if lowerStrip watchlist_title = lowerStrip cinema_title then 1
  else advanced_title_matching watchlist_title cinema_title

/-- A watchlist record, restricted to the fields `find_matches` reads for
scoring (`original_title` and `url` are only copied into the result). -/
structure WatchlistFilm where
  title : List Char
  alternative_titles : List (List Char)
deriving DecidableEq

/-- `titles_to_check` (cinema_checker.py lines 330-334): the primary
title followed by the alternative titles. -/
def titlesToCheck (e : WatchlistFilm) : List (List Char) :=
  e.title :: e.alternative_titles

/-- The running best score: `best_score` starts at `0`
(cinema_checker.py line 341). -/
def bscoreOf (best : Option ((List Char × List Char) × ℚ)) : ℚ :=
  match best with
  | none => 0
  | some r => r.2

/-- One step of the best-match accumulation (cinema_checker.py lines
363-375): replace the current best exactly when the new score strictly
exceeds both the current best score (`0` when none) and the `0.6`
threshold. -/
def stepPair (best : Option ((List Char × List Char) × ℚ))
    (p : List Char × List Char) : Option ((List Char × List Char) × ℚ) :=
  if bscoreOf best < matchScore p.1 p.2 ∧ mkRat 3 5 < matchScore p.1 p.2 then
    some (p, matchScore p.1 p.2)
  else best

/-- The per-entry loop of `find_matches` (cinema_checker.py lines
340-375): iterate over cinema films (outer) and title variants (inner),
skipping variants that are empty or of raw length below 3. -/
def bestMatch (e : WatchlistFilm) (cinema_films : List (List Char)) :
    Option ((List Char × List Char) × ℚ) :=
  cinema_films.foldl (fun best cinema_title =>
    (titlesToCheck e).foldl (fun b t =>
      if t = [] ∨ t.length < 3 then b else stepPair b (t, cinema_title)) best) none

/-- `find_matches` (cinema_checker.py lines 311-382): at most one kept
match per watchlist entry, the result of the per-entry best-match loop. -/
def find_matches (watchlist_films : List WatchlistFilm)
    (cinema_films : List (List Char)) :
    List (WatchlistFilm × (List Char × List Char) × ℚ) :=
  watchlist_films.filterMap (fun e => (bestMatch e cinema_films).map (fun m => (e, m)))

/-- Substring test on character lists (used only to state the claims about
the alleged containment branch). -/
def isPrefixL : List Char → List Char → Bool
  | [], _ => true
  | _ :: _, [] => false
  | x :: xs, y :: ys => x = y && isPrefixL xs ys

/-- `s` occurs as a contiguous substring of `t`. -/
def isSubstringOf : List Char → List Char → Bool
  | s, [] => s.isEmpty
  | s, c :: t => isPrefixL s (c :: t) || isSubstringOf s t

/-- Shorthand for the character list of a string literal. -/
def lc (s : String) : List Char := s.data

/-! ### Specification-side definitions

The following definitions are written from the words of the
specification, to be compared with the definitions translated from the
source.  They are used only in claim statements (refinements and
counterexamples). -/

/-- The keyword-overlap measure exactly as the specification words it:
tokenize on whitespace, keep tokens longer than 2 characters, form two
sets, and compute `|intersection| / max(|set1|, |set2|)`; `0` when
either set is empty (with no special case for an empty intersection). -/
def specKeywordOverlap (t1 t2 : List Char) : ℚ :=
  if (keywordTokens t1).isEmpty || (keywordTokens t2).isEmpty then 0
  else mkRat ((keywordTokens t1).filter
      (fun w => decide (w ∈ keywordTokens t2))).length
    (max (keywordTokens t1).length (keywordTokens t2).length)

/-- The normalization pipeline exactly as the claim words it: lower-case,
strip all punctuation characters, collapse each whitespace run to a
single space, and trim whitespace from both ends of the result. -/
def claimNormalize (t : List Char) : List Char :=
  pyStrip (collapseWs (removePunct (t.map pyLower)))

/-- Article removal exactly as the claim words it: the stop-list tokens
removed only where they occur as leading standalone tokens. -/
def removeLeadingArticles (t : List Char) : List Char :=
  joinSpace ((pySplit t).dropWhile (fun w => decide (w ∈ articles)))

/-- Removal of the stop-list tokens wherever they occur as standalone
tokens (the amended reading of the article-removal claim), written as a
direct recursion over the token list. -/
def specRemoveTokens : List (List Char) → List (List Char)
  | [] => []
  | w :: ws => if w ∈ articles then specRemoveTokens ws else w :: specRemoveTokens ws

/-- The `(title-variant, cinema-listing)` pairs scored by the per-entry
loop of `find_matches`, in iteration order: cinema films outer, title
variants inner, variants that are empty or of raw length below 3
skipped. -/
def scoredPairs (e : WatchlistFilm) (cinema_films : List (List Char)) :
    List (List Char × List Char) :=
  (cinema_films.map (fun c =>
    ((titlesToCheck e).filter (fun t => decide (¬(t = [] ∨ t.length < 3)))).map
      (fun t => (t, c)))).flatten

/-- A single space exactly when the list starts with whitespace (used to
describe the boundary behaviour of `collapseWs`). -/
def headWsMark : List Char → List Char
  | [] => []
  | c :: _ => if isWs c then [' '] else []

/-- A single space exactly when the list ends with whitespace and still
contains a token (used to describe the boundary behaviour of
`collapseWs`). -/
def trailWsMark (v : List Char) : List Char :=
  if pySplit v = [] then [] else headWsMark v.reverse

/-! ### Basic lemmas about the matcher -/

/-- Titles equal after lower-casing and stripping score `1.0`. -/
theorem matchScore_eqKey {a b : List Char} (h : lowerStrip a = lowerStrip b) :
    matchScore a b = 1 := by
  unfold matchScore
  rw [if_pos h]

/-- Titles not equal after lower-casing and stripping get the fuzzy
score. -/
theorem matchScore_neKey {a b : List Char} (h : ¬lowerStrip a = lowerStrip b) :
    matchScore a b = advanced_title_matching a b := by
  unfold matchScore
  rw [if_neg h]

/-- The source's keyword measure, with its extra early return on an empty
intersection, computes exactly the specification formula. -/
theorem keyword_matching_eq_spec (t1 t2 : List Char) :
    keyword_matching t1 t2 = specKeywordOverlap t1 t2 := by
  unfold keyword_matching specKeywordOverlap
  by_cases h1 : (keywordTokens t1).isEmpty || (keywordTokens t2).isEmpty
  · rw [if_pos h1, if_pos h1]
  · rw [if_neg h1, if_neg h1]
    by_cases h2 : ((keywordTokens t1).filter
        (fun w => decide (w ∈ keywordTokens t2))).isEmpty
    · rw [if_pos h2, List.isEmpty_iff] at *
      rw [h2]
      simp
    · rw [if_neg h2]

/-! ### Tokenization lemmas

Equations characterizing `pySplit` without its accumulator, and the
interaction of tokenization with stripping, punctuation removal and
whitespace collapsing.  These support the amended claims about
`normalize_title` and `remove_articles`. -/

theorem pySplit_nil : pySplit [] = [] := rfl

theorem pySplit_cons_ws {c : Char} (h : isWs c = true) (cs : List Char) :
    pySplit (c :: cs) = pySplit cs := by
  simp [pySplit, pySplitAux, h]

theorem pySplitAux_acc (cs : List Char) : ∀ acc : List Char, acc ≠ [] →
    pySplitAux cs acc =
      (acc.reverse ++ cs.takeWhile (fun c => !isWs c)) ::
        pySplit (cs.dropWhile (fun c => !isWs c)) := by
  induction cs with
  | nil =>
    intro acc h
    simp [pySplitAux, pySplit, h]
  | cons c cs ih =>
    intro acc h
    cases hw : isWs c with
    | true =>
      have hne : acc.isEmpty = false := by
        cases acc
        · exact absurd rfl h
        · rfl
      have hstep : pySplitAux (c :: cs) acc = acc.reverse :: pySplitAux cs [] := by
        simp [pySplitAux, hw, hne]
      have htk : (c :: cs).takeWhile (fun x => !isWs x) = [] := by
        simp [List.takeWhile_cons, hw]
      have hdr : (c :: cs).dropWhile (fun x => !isWs x) = c :: cs := by
        simp [List.dropWhile_cons, hw]
      rw [hstep, htk, hdr, List.append_nil, pySplit_cons_ws hw]
      rfl
    | false =>
      have hstep : pySplitAux (c :: cs) acc = pySplitAux cs (c :: acc) := by
        simp [pySplitAux, hw]
      rw [hstep, ih (c :: acc) (by simp)]
      rw [List.takeWhile_cons, List.dropWhile_cons]
      simp [hw]

theorem pySplit_cons_notWs {c : Char} (h : isWs c = false) (cs : List Char) :
    pySplit (c :: cs) =
      (c :: cs.takeWhile (fun x => !isWs x)) ::
        pySplit (cs.dropWhile (fun x => !isWs x)) := by
  have h0 : pySplit (c :: cs) = pySplitAux cs [c] := by
    simp [pySplit, pySplitAux, h]
  rw [h0, pySplitAux_acc cs [c] (by simp)]
  rfl

theorem pySplit_eq_nil_iff (l : List Char) :
    pySplit l = [] ↔ ∀ c ∈ l, isWs c = true := by
  induction l with
  | nil => simp [pySplit_nil]
  | cons c cs ih =>
    cases hw : isWs c with
    | true =>
      rw [pySplit_cons_ws hw]
      simp [hw, ih]
    | false =>
      rw [pySplit_cons_notWs hw]
      simp [hw]

theorem takeWhile_notWs_append (v : List Char) {t : Char} (ht : isWs t = true)
    (tw : List Char) :
    (v ++ t :: tw).takeWhile (fun x => !isWs x) =
      v.takeWhile (fun x => !isWs x) := by
  induction v with
  | nil => simp [List.takeWhile_cons, ht]
  | cons c v ih =>
    cases hw : isWs c <;> simp [List.takeWhile_cons, hw, ih]

theorem dropWhile_notWs_append (v : List Char) {t : Char} (ht : isWs t = true)
    (tw : List Char) :
    (v ++ t :: tw).dropWhile (fun x => !isWs x) =
      v.dropWhile (fun x => !isWs x) ++ t :: tw := by
  induction v with
  | nil => simp [List.dropWhile_cons, ht]
  | cons c v ih =>
    cases hw : isWs c <;> simp [List.dropWhile_cons, hw, ih]

theorem pySplit_append_ws_right_aux :
    ∀ (n : Nat) (v tw : List Char), v.length ≤ n →
      (∀ c ∈ tw, isWs c = true) → pySplit (v ++ tw) = pySplit v := by
  intro n
  induction n with
  | zero =>
    intro v tw hlen hws
    have hv : v = [] := List.length_eq_zero.1 (Nat.le_zero.1 hlen)
    subst hv
    rw [List.nil_append, pySplit_nil, (pySplit_eq_nil_iff tw).2 hws]
  | succ n ih =>
    intro v tw hlen hws
    match v with
    | [] => rw [List.nil_append, pySplit_nil, (pySplit_eq_nil_iff tw).2 hws]
    | c :: v =>
      have hlen' : v.length ≤ n := Nat.le_of_succ_le_succ (by simpa using hlen)
      cases hw : isWs c with
      | true =>
        rw [List.cons_append, pySplit_cons_ws hw, pySplit_cons_ws hw]
        exact ih v tw hlen' hws
      | false =>
        rw [List.cons_append, pySplit_cons_notWs hw, pySplit_cons_notWs hw]
        cases tw with
        | nil => rw [List.append_nil]
        | cons t tw2 =>
          have htws : isWs t = true := hws t (List.mem_cons_self _ _)
          rw [takeWhile_notWs_append v htws, dropWhile_notWs_append v htws]
          have hdlen : (v.dropWhile (fun x => !isWs x)).length ≤ n :=
            le_trans ((List.dropWhile_sublist _).length_le) hlen'
          rw [ih _ _ hdlen hws]

theorem pySplit_append_ws_right (v tw : List Char)
    (h : ∀ c ∈ tw, isWs c = true) : pySplit (v ++ tw) = pySplit v :=
  pySplit_append_ws_right_aux v.length v tw (le_refl _) h

theorem pySplit_append_ws_left (lw : List Char) (v : List Char)
    (h : ∀ c ∈ lw, isWs c = true) : pySplit (lw ++ v) = pySplit v := by
  induction lw with
  | nil => rfl
  | cons c lw ih =>
    rw [List.cons_append, pySplit_cons_ws (h c (List.mem_cons_self _ _))]
    exact ih fun c hc => h c (List.mem_cons_of_mem _ hc)

/-- Every string is a whitespace prefix, its stripped core, and a
whitespace suffix. -/
theorem exists_strip_decomp (u : List Char) :
    ∃ lw tw, (∀ c ∈ lw, isWs c = true) ∧ (∀ c ∈ tw, isWs c = true) ∧
      u = lw ++ pyStrip u ++ tw := by
  refine ⟨u.takeWhile isWs, ((u.dropWhile isWs).reverse.takeWhile isWs).reverse,
    fun c hc => List.mem_takeWhile_imp hc,
    fun c hc => List.mem_takeWhile_imp (List.mem_reverse.1 hc), ?_⟩
  conv_lhs => rw [← List.takeWhile_append_dropWhile (p := isWs) (l := u)]
  rw [List.append_assoc]
  congr 1
  conv_lhs => rw [← List.reverse_reverse (u.dropWhile isWs),
    ← List.takeWhile_append_dropWhile (p := isWs) (l := (u.dropWhile isWs).reverse),
    List.reverse_append]
  rfl

theorem pySplit_pyStrip (u : List Char) : pySplit (pyStrip u) = pySplit u := by
  obtain ⟨lw, tw, hlw, htw, hu⟩ := exists_strip_decomp u
  conv_rhs => rw [hu]
  rw [List.append_assoc, pySplit_append_ws_left lw _ hlw,
    pySplit_append_ws_right _ tw htw]

/-- Whitespace characters are not punctuation. -/
theorem ws_not_punct {c : Char} (h : isWs c = true) : isPunct c = false := by
  simp only [isWs, Bool.or_eq_true, decide_eq_true_eq] at h
  rcases h with ((((h | h) | h) | h) | h) | h <;> subst h <;> decide

/-- Stripping the ends before punctuation removal does not change the
token list of the result. -/
theorem pySplit_removePunct_pyStrip (u : List Char) :
    pySplit (removePunct (pyStrip u)) = pySplit (removePunct u) := by
  obtain ⟨lw, tw, hlw, htw, hu⟩ := exists_strip_decomp u
  conv_rhs => rw [hu]
  unfold removePunct
  rw [List.filter_append, List.filter_append]
  have hlw2 : lw.filter (fun c => !isPunct c) = lw :=
    List.filter_eq_self.2 fun c hc => by rw [ws_not_punct (hlw c hc)]; rfl
  have htw2 : tw.filter (fun c => !isPunct c) = tw :=
    List.filter_eq_self.2 fun c hc => by rw [ws_not_punct (htw c hc)]; rfl
  rw [hlw2, htw2, List.append_assoc, pySplit_append_ws_left lw _ hlw,
    pySplit_append_ws_right _ tw htw]

theorem joinSpace_cons (w : List Char) (ws : List (List Char)) :
    joinSpace (w :: ws) = w ++ (if ws = [] then [] else ' ' :: joinSpace ws) := by
  cases ws <;> simp [joinSpace]

theorem headWsMark_append_ne (x y : List Char) (hx : x ≠ []) :
    headWsMark (x ++ y) = headWsMark x := by
  cases x
  · exact absurd rfl hx
  · rfl

theorem headWsMark_cases (x : List Char) :
    headWsMark x = [] ∨ headWsMark x = [' '] := by
  cases x with
  | nil => exact Or.inl rfl
  | cons c x2 =>
    cases hw : isWs c
    · exact Or.inl (by simp [headWsMark, hw])
    · exact Or.inr (by simp [headWsMark, hw])

theorem trailWsMark_cons (c : Char) (v : List Char) (hv : v ≠ [])
    (h1 : pySplit (c :: v) ≠ []) (h2 : pySplit v ≠ []) :
    trailWsMark (c :: v) = trailWsMark v := by
  unfold trailWsMark
  rw [if_neg h1, if_neg h2, List.reverse_cons,
    headWsMark_append_ne _ _ (by simpa using hv)]

/-- The boundary characterization of whitespace collapsing: a single
leading space when the input starts with whitespace, the tokens joined by
single spaces, and a single trailing space when the input ends with
whitespace and still has a token. -/
theorem collapseWs_characterization (v : List Char) :
    collapseWs v = headWsMark v ++ joinSpace (pySplit v) ++ trailWsMark v := by
  induction v with
  | nil => rfl
  | cons c v ih =>
    cases v with
    | nil =>
      cases hw : isWs c with
      | true =>
        simp [collapseWs, hw, headWsMark, trailWsMark, pySplit_cons_ws hw,
          pySplit_nil, joinSpace]
      | false =>
        simp [collapseWs, hw, headWsMark, trailWsMark, pySplit_cons_notWs hw,
          pySplit_nil, joinSpace]
    | cons d cs =>
      cases hw : isWs c with
      | true =>
        have hps : pySplit (c :: d :: cs) = pySplit (d :: cs) :=
          pySplit_cons_ws hw _
        have htr : trailWsMark (c :: d :: cs) = trailWsMark (d :: cs) := by
          unfold trailWsMark
          rw [hps, List.reverse_cons, headWsMark_append_ne _ _ (by simp)]
        cases hd : isWs d with
        | true =>
          calc collapseWs (c :: d :: cs) = collapseWs (d :: cs) := by
                simp [collapseWs, hw, hd]
          _ = headWsMark (d :: cs) ++ joinSpace (pySplit (d :: cs)) ++
                trailWsMark (d :: cs) := ih
          _ = _ := by
                rw [hps, htr]
                simp [headWsMark, hw, hd]
        | false =>
          calc collapseWs (c :: d :: cs) = ' ' :: collapseWs (d :: cs) := by
                simp [collapseWs, hw, hd]
          _ = ' ' :: (headWsMark (d :: cs) ++ joinSpace (pySplit (d :: cs)) ++
                trailWsMark (d :: cs)) := by rw [ih]
          _ = _ := by
                rw [hps, htr]
                simp [headWsMark, hw, hd]
      | false =>
        have hcol : collapseWs (c :: d :: cs) = c :: collapseWs (d :: cs) := by
          simp [collapseWs, hw]
        cases hd : isWs d with
        | true =>
          have htk : (d :: cs).takeWhile (fun x => !isWs x) = [] := by
            simp [List.takeWhile_cons, hd]
          have hdr : (d :: cs).dropWhile (fun x => !isWs x) = d :: cs := by
            simp [List.dropWhile_cons, hd]
          have hps : pySplit (c :: d :: cs) = [c] :: pySplit (d :: cs) := by
            rw [pySplit_cons_notWs hw, htk, hdr]
          by_cases hpv : pySplit (d :: cs) = []
          · have hallws : ∀ x ∈ d :: cs, isWs x = true :=
              (pySplit_eq_nil_iff _).1 hpv
            have hrev : trailWsMark (c :: d :: cs) = [' '] := by
              unfold trailWsMark
              rw [hps, hpv, if_neg (by simp), List.reverse_cons,
                headWsMark_append_ne _ _ (by simp)]
              cases hr : (d :: cs).reverse with
              | nil => exact absurd (List.reverse_eq_nil_iff.1 hr) (by simp)
              | cons x xs =>
                have hx : x ∈ d :: cs := by
                  rw [← List.mem_reverse, hr]
                  exact List.mem_cons_self _ _
                simp [headWsMark, hallws x hx]
            rw [hcol, ih, hps, hpv, hrev]
            simp [headWsMark, hw, hd, trailWsMark, hpv, joinSpace]
          · have htr : trailWsMark (c :: d :: cs) = trailWsMark (d :: cs) :=
              trailWsMark_cons c (d :: cs) (by simp) (by rw [hps]; simp) hpv
            obtain ⟨h1, t1, hps2⟩ : ∃ h1 t1, pySplit (d :: cs) = h1 :: t1 := by
              cases hx : pySplit (d :: cs) with
              | nil => exact absurd hx hpv
              | cons h1 t1 => exact ⟨h1, t1, rfl⟩
            rw [hcol, ih, hps, hps2, htr]
            simp [headWsMark, hw, hd, joinSpace]
        | false =>
          have hps : pySplit (c :: d :: cs) =
              (c :: d :: cs.takeWhile (fun x => !isWs x)) ::
                pySplit (cs.dropWhile (fun x => !isWs x)) := by
            rw [pySplit_cons_notWs hw]
            rw [show (d :: cs).takeWhile (fun x => !isWs x) =
              d :: cs.takeWhile (fun x => !isWs x) by simp [List.takeWhile_cons, hd]]
            rw [show (d :: cs).dropWhile (fun x => !isWs x) =
              cs.dropWhile (fun x => !isWs x) by simp [List.dropWhile_cons, hd]]
          have hps2 : pySplit (d :: cs) =
              (d :: cs.takeWhile (fun x => !isWs x)) ::
                pySplit (cs.dropWhile (fun x => !isWs x)) :=
            pySplit_cons_notWs hd cs
          have htr : trailWsMark (c :: d :: cs) = trailWsMark (d :: cs) :=
            trailWsMark_cons c (d :: cs) (by simp) (by rw [hps]; simp)
              (by rw [hps2]; simp)
          rw [hcol, ih, hps, hps2, htr]
          simp [headWsMark, hw, hd, joinSpace_cons]

/-- Tokens produced by `pySplit` are non-empty and contain no
whitespace. -/
theorem pySplit_tokens_aux :
    ∀ (n : Nat) (v : List Char), v.length ≤ n →
      ∀ w ∈ pySplit v, w ≠ [] ∧ ∀ c ∈ w, isWs c = false := by
  intro n
  induction n with
  | zero =>
    intro v hlen
    have hv : v = [] := List.length_eq_zero.1 (Nat.le_zero.1 hlen)
    subst hv
    simp [pySplit_nil]
  | succ n ih =>
    intro v hlen w hw
    match v with
    | [] => simp [pySplit_nil] at hw
    | c :: v =>
      have hlen' : v.length ≤ n := Nat.le_of_succ_le_succ (by simpa using hlen)
      cases hws : isWs c with
      | true =>
        rw [pySplit_cons_ws hws] at hw
        exact ih v hlen' w hw
      | false =>
        rw [pySplit_cons_notWs hws] at hw
        rcases List.mem_cons.1 hw with rfl | hw2
        · refine ⟨by simp, ?_⟩
          intro x hx
          rcases List.mem_cons.1 hx with rfl | hx2
          · exact hws
          · simpa using List.mem_takeWhile_imp hx2
        · exact ih (v.dropWhile (fun x => !isWs x))
            (le_trans ((List.dropWhile_sublist _).length_le) hlen') w hw2

theorem pySplit_tokens (v : List Char) :
    ∀ w ∈ pySplit v, w ≠ [] ∧ ∀ c ∈ w, isWs c = false :=
  pySplit_tokens_aux v.length v (le_refl _)

theorem joinSpace_ne_nil {w : List Char} (hw : w ≠ []) (t : List (List Char)) :
    joinSpace (w :: t) ≠ [] := by
  rw [joinSpace_cons]
  intro h
  exact hw (List.append_eq_nil.1 h).1

theorem joinSpace_head_not_ws (ws : List (List Char))
    (h : ∀ w ∈ ws, w ≠ [] ∧ ∀ c ∈ w, isWs c = false) :
    ∀ a x, joinSpace ws = a :: x → isWs a = false := by
  cases ws with
  | nil => simp [joinSpace]
  | cons w t =>
    intro a x hx
    obtain ⟨hne, hall⟩ := h w (List.mem_cons_self _ _)
    obtain ⟨b, w2, rfl⟩ : ∃ b w2, w = b :: w2 := by
      cases w with
      | nil => exact absurd rfl hne
      | cons b w2 => exact ⟨b, w2, rfl⟩
    rw [joinSpace_cons, List.cons_append] at hx
    have hab : a = b := by
      have hh := congrArg List.head? hx
      simpa using hh.symm
    rw [hab]
    exact hall b (List.mem_cons_self _ _)

theorem joinSpace_getLast_not_ws :
    ∀ ws : List (List Char),
      (∀ w ∈ ws, w ≠ [] ∧ ∀ c ∈ w, isWs c = false) →
      ∀ a, (joinSpace ws).getLast? = some a → isWs a = false := by
  intro ws
  induction ws with
  | nil => simp [joinSpace]
  | cons w t ih =>
    intro h a ha
    cases t with
    | nil =>
      have haw : a ∈ w := by
        have ha2 : w.getLast? = some a := by simpa [joinSpace] using ha
        obtain ⟨hne, rfl⟩ :=
          List.mem_getLast?_eq_getLast (show a ∈ w.getLast? from ha2)
        exact List.getLast_mem hne
      exact (h w (List.mem_cons_self _ _)).2 a haw
    | cons w2 t2 =>
      rw [joinSpace_cons, if_neg (by simp),
        List.getLast?_append_of_ne_nil _ (by simp)] at ha
      have hJ : joinSpace (w2 :: t2) ≠ [] :=
        joinSpace_ne_nil (h w2 (by simp)).1 t2
      rw [show (' ' :: joinSpace (w2 :: t2)) = [' '] ++ joinSpace (w2 :: t2)
        from rfl, List.getLast?_append_of_ne_nil _ hJ] at ha
      exact ih (fun w hw => h w (List.mem_cons_of_mem _ hw)) a ha

/-- A list whose first and last characters are not whitespace is
unchanged by stripping. -/
theorem pyStrip_of_boundaries (x : List Char)
    (h1 : ∀ a x2, x = a :: x2 → isWs a = false)
    (h2 : ∀ a, x.getLast? = some a → isWs a = false) : pyStrip x = x := by
  cases x with
  | nil => rfl
  | cons a x2 =>
    unfold pyStrip dropTrailWs
    rw [List.dropWhile_cons, if_neg (by simp [h1 a x2 rfl])]
    cases hr : (a :: x2).reverse with
    | nil => exact absurd (List.reverse_eq_nil_iff.1 hr) (by simp)
    | cons b y =>
      have hb : isWs b = false := by
        apply h2
        have : (a :: x2).reverse.head? = some b := by rw [hr]; rfl
        rwa [List.head?_reverse] at this
      rw [List.dropWhile_cons, if_neg (by simp [hb]), ← hr,
        List.reverse_reverse]

theorem dropTrailWs_append_space (x : List Char) :
    dropTrailWs (x ++ [' ']) = dropTrailWs x := by
  unfold dropTrailWs
  rw [List.reverse_append,
    show ([' '] : List Char).reverse ++ x.reverse = ' ' :: x.reverse from rfl,
    List.dropWhile_cons, if_pos (by decide)]

theorem trailWsMark_cases (v : List Char) :
    trailWsMark v = [] ∨ trailWsMark v = [' '] := by
  unfold trailWsMark
  split
  · exact Or.inl rfl
  · exact headWsMark_cases v.reverse

/-- Stripping the output of whitespace collapsing gives the tokens joined
by single spaces. -/
theorem pyStrip_collapseWs (v : List Char) :
    pyStrip (collapseWs v) = joinSpace (pySplit v) := by
  rw [collapseWs_characterization]
  by_cases hpv : pySplit v = []
  · rw [hpv]
    unfold trailWsMark
    rw [if_pos hpv]
    cases v with
    | nil => rfl
    | cons c v2 =>
      have hw : isWs c = true :=
        (pySplit_eq_nil_iff _).1 hpv c (List.mem_cons_self _ _)
      simp only [headWsMark, hw, if_pos, joinSpace, List.append_nil]
      rfl
  · have htok := pySplit_tokens v
    have hhead := joinSpace_head_not_ws (pySplit v) htok
    have hlast := joinSpace_getLast_not_ws (pySplit v) htok
    obtain ⟨h1, t1, hps⟩ : ∃ h1 t1, pySplit v = h1 :: t1 := by
      cases hx : pySplit v with
      | nil => exact absurd hx hpv
      | cons h1 t1 => exact ⟨h1, t1, rfl⟩
    have hJne : joinSpace (pySplit v) ≠ [] := by
      rw [hps]
      exact joinSpace_ne_nil (htok h1 (by rw [hps]; exact List.mem_cons_self _ _)).1 t1
    have hJstrip : pyStrip (joinSpace (pySplit v)) = joinSpace (pySplit v) :=
      pyStrip_of_boundaries _ hhead hlast
    obtain ⟨a, x2, hJ⟩ : ∃ a x2, joinSpace (pySplit v) = a :: x2 := by
      cases hx : joinSpace (pySplit v) with
      | nil => exact absurd hx hJne
      | cons a x2 => exact ⟨a, x2, rfl⟩
    have hahd : isWs a = false := hhead a x2 hJ
    have step2 : pyStrip (joinSpace (pySplit v) ++ trailWsMark v) =
        joinSpace (pySplit v) := by
      rcases trailWsMark_cases v with h | h
      · rw [h, List.append_nil]
        exact hJstrip
      · rw [h, hJ]
        unfold pyStrip
        rw [List.cons_append, List.dropWhile_cons, if_neg (by simp [hahd]),
          show a :: (x2 ++ [' ']) = (a :: x2) ++ [' '] by simp,
          dropTrailWs_append_space]
        have hthis : pyStrip (a :: x2) = a :: x2 := by
          rw [← hJ]
          exact hJstrip
        unfold pyStrip at hthis
        rwa [List.dropWhile_cons, if_neg (by simp [hahd])] at hthis
    rcases headWsMark_cases v with h | h
    · rw [h, List.nil_append]
      exact step2
    · rw [h, show [' '] ++ joinSpace (pySplit v) ++ trailWsMark v =
        ' ' :: (joinSpace (pySplit v) ++ trailWsMark v) by simp]
      rw [show pyStrip (' ' :: (joinSpace (pySplit v) ++ trailWsMark v)) =
        pyStrip (joinSpace (pySplit v) ++ trailWsMark v) by
          unfold pyStrip
          rw [List.dropWhile_cons, if_pos (by decide)]]
      exact step2

/-! ### The per-entry best-match loop as a linear fold -/

/-- The inner variant loop with its skip is the fold of `stepPair` over
the eligible variants paired with the fixed cinema title. -/
theorem foldl_inner_filter (c : List Char) (l : List (List Char))
    (b : Option ((List Char × List Char) × ℚ)) :
    l.foldl (fun b t => if t = [] ∨ t.length < 3 then b else stepPair b (t, c)) b =
      ((l.filter (fun t => decide (¬(t = [] ∨ t.length < 3)))).map
        (fun t => (t, c))).foldl stepPair b := by
  induction l generalizing b with
  | nil => rfl
  | cons t l ih =>
    by_cases h : t = [] ∨ t.length < 3
    · have hf : List.filter (fun t => decide ¬(t = [] ∨ t.length < 3)) (t :: l) =
          List.filter (fun t => decide ¬(t = [] ∨ t.length < 3)) l := by
        rcases h with h | h
        · simp [List.filter_cons, h]
        · simp [List.filter_cons, not_le.mpr h]
      rw [List.foldl_cons, if_pos h, hf]
      exact ih b
    · have h1 : t ≠ [] := fun hh => h (Or.inl hh)
      have h2 : 3 ≤ t.length := not_lt.1 fun hh => h (Or.inr hh)
      have hf : List.filter (fun t => decide ¬(t = [] ∨ t.length < 3)) (t :: l) =
          t :: List.filter (fun t => decide ¬(t = [] ∨ t.length < 3)) l := by
        simp [List.filter_cons, h1, h2]
      rw [List.foldl_cons, if_neg h, hf, List.map_cons, List.foldl_cons]
      exact ih (stepPair b (t, c))

/-- Unfolding of `scoredPairs` over the head cinema film. -/
theorem scoredPairs_cons (e : WatchlistFilm) (c : List Char) (cs : List (List Char)) :
    scoredPairs e (c :: cs) =
      ((titlesToCheck e).filter (fun t => decide (¬(t = [] ∨ t.length < 3)))).map
        (fun t => (t, c)) ++ scoredPairs e cs := by
  simp [scoredPairs]

/-- `bestMatch` is the fold of `stepPair` over the scored pairs in
iteration order. -/
theorem bestMatch_eq_foldl (e : WatchlistFilm) (cinema_films : List (List Char)) :
    bestMatch e cinema_films = (scoredPairs e cinema_films).foldl stepPair none := by
  suffices h : ∀ (cs : List (List Char)) (b : Option ((List Char × List Char) × ℚ)),
      cs.foldl (fun best cinema_title =>
        (titlesToCheck e).foldl (fun b t =>
          if t = [] ∨ t.length < 3 then b else stepPair b (t, cinema_title)) best) b =
        (scoredPairs e cs).foldl stepPair b from h cinema_films none
  intro cs
  induction cs with
  | nil => intro b; rfl
  | cons c cs ih =>
    intro b
    rw [List.foldl_cons, ih, foldl_inner_filter, scoredPairs_cons, List.foldl_append]

/-- The fold of `stepPair` keeps nothing when no pair beats the
threshold, and otherwise keeps exactly the first pair attaining the
maximum score. -/
theorem foldl_stepPair_characterization (l : List (List Char × List Char)) :
    (l.foldl stepPair none = none ∧
      ∀ q ∈ l, matchScore q.1 q.2 ≤ mkRat 3 5) ∨
    (∃ p l1 l2, l = l1 ++ p :: l2 ∧
      l.foldl stepPair none = some (p, matchScore p.1 p.2) ∧
      mkRat 3 5 < matchScore p.1 p.2 ∧
      (∀ q ∈ l, matchScore q.1 q.2 ≤ matchScore p.1 p.2) ∧
      (∀ q ∈ l1, matchScore q.1 q.2 < matchScore p.1 p.2)) := by
  induction l using List.reverseRecOn with
  | nil => exact Or.inl ⟨rfl, by simp⟩
  | append_singleton l p ih =>
    rw [List.foldl_append, List.foldl_cons, List.foldl_nil]
    rcases ih with ⟨hnone, hall⟩ | ⟨p0, l1, l2, hsplit, hsome, h35, hmax, hfirst⟩
    · rw [hnone]
      by_cases hs : mkRat 3 5 < matchScore p.1 p.2
      · refine Or.inr ⟨p, l, [], rfl, ?_, hs, ?_, ?_⟩
        · unfold stepPair
          rw [if_pos ⟨lt_trans (by decide : bscoreOf none < mkRat 3 5) hs, hs⟩]
        · intro q hq
          rcases List.mem_append.1 hq with hql | hqp
          · exact le_trans (hall q hql) (le_of_lt hs)
          · rw [List.mem_singleton.1 hqp]
        · intro q hq
          exact lt_of_le_of_lt (hall q hq) hs
      · refine Or.inl ⟨?_, ?_⟩
        · unfold stepPair
          rw [if_neg fun hc => hs hc.2]
        · intro q hq
          rcases List.mem_append.1 hq with hql | hqp
          · exact hall q hql
          · rw [List.mem_singleton.1 hqp]
            exact le_of_not_lt hs
    · rw [hsome]
      by_cases hc : bscoreOf (some (p0, matchScore p0.1 p0.2)) < matchScore p.1 p.2 ∧
          mkRat 3 5 < matchScore p.1 p.2
      · refine Or.inr ⟨p, l, [], rfl, ?_, hc.2, ?_, ?_⟩
        · unfold stepPair
          rw [if_pos hc]
        · intro q hq
          rcases List.mem_append.1 hq with hql | hqp
          · exact le_trans (hmax q hql) (le_of_lt hc.1)
          · rw [List.mem_singleton.1 hqp]
        · intro q hq
          exact lt_of_le_of_lt (hmax q hq) hc.1
      · refine Or.inr ⟨p0, l1, l2 ++ [p], by rw [hsplit]; simp, ?_, h35, ?_, hfirst⟩
        · unfold stepPair
          rw [if_neg hc]
        · intro q hq
          rcases List.mem_append.1 hq with hql | hqp
          · exact hmax q hql
          · rw [List.mem_singleton.1 hqp]
            by_cases hb : mkRat 3 5 < matchScore p.1 p.2
            · exact le_of_not_lt fun hlt => hc ⟨hlt, hb⟩
            · exact le_trans (le_of_not_lt hb) (le_of_lt h35)

/-- `find_matches` on a single entry keeps the per-entry best match. -/
theorem find_matches_singleton (e : WatchlistFilm) (cinema_films : List (List Char)) :
    find_matches [e] cinema_films =
      match bestMatch e cinema_films with
      | none => []
      | some m => [(e, m)] := by
  unfold find_matches
  cases h : bestMatch e cinema_films <;>
    simp [List.filterMap_cons, h]

/-! ### Claim theorems -/

/-- Claim C3 (confirmed): any two titles equal after case-folding and
whitespace-trimming score `1.0`, short-circuiting the fuzzy branch; in
particular `score("inception", "  Inception  ") = 1.0`. -/
theorem C3_exact_match_short_circuit :
    (∀ a b : List Char, lowerStrip a = lowerStrip b → matchScore a b = 1) ∧
    matchScore (lc "inception") (lc "  Inception  ") = 1 :=
  ⟨fun _ _ h => matchScore_eqKey h, by decide⟩

/-- Witness for C3: the general part applied to a concrete pair equal
after case-folding and trimming. -/
theorem C3_exact_match_short_circuit_witness :
    matchScore (lc "La La Land") (lc "la la land") = 1 :=
  C3_exact_match_short_circuit.1 _ _ (by decide)

/-- Claim C9 (confirmed): `score(x, x) = 1.0` for every non-empty title. -/
theorem C9_reflexivity (x : List Char) (_h : x ≠ []) : matchScore x x = 1 :=
  matchScore_eqKey rfl

/-- Witness for C9 at a concrete non-empty title. -/
theorem C9_reflexivity_witness :
    lc "Oppenheimer" ≠ [] ∧ matchScore (lc "Oppenheimer") (lc "Oppenheimer") = 1 :=
  ⟨by decide, C9_reflexivity (lc "Oppenheimer") (by decide)⟩

/-- Claim C2 (confirmed): on the fuzzy branch the score is the maximum of
exactly three measures on the normalized forms: the sequence-matching
ratio, the same ratio after article removal, and the keyword-overlap
measure `|intersection| / max(|set1|, |set2|)` (0 when either token set
is empty). -/
theorem C2_fuzzy_max_of_three (t1 t2 : List Char)
    (h : lowerStrip t1 ≠ lowerStrip t2) :
    matchScore t1 t2 =
      pyMax (ratioQ (normalize_title t1) (normalize_title t2))
        (pyMax
          (ratioQ (remove_articles (normalize_title t1))
            (remove_articles (normalize_title t2)))
          (specKeywordOverlap (normalize_title t1) (normalize_title t2))) := by
  rw [matchScore_neKey h]
  unfold advanced_title_matching
  rw [keyword_matching_eq_spec]

/-- Witness for C2 at a concrete pair reaching the fuzzy branch. -/
theorem C2_fuzzy_max_of_three_witness :
    matchScore (lc "Dune") (lc "Dune Part Two") =
      pyMax (ratioQ (normalize_title (lc "Dune")) (normalize_title (lc "Dune Part Two")))
        (pyMax
          (ratioQ (remove_articles (normalize_title (lc "Dune")))
            (remove_articles (normalize_title (lc "Dune Part Two"))))
          (specKeywordOverlap (normalize_title (lc "Dune"))
            (normalize_title (lc "Dune Part Two")))) :=
  C2_fuzzy_max_of_three _ _ (by decide)

/-- Claim C1 (refuted): the code has no containment branch.  For the
claim's own example, `"batman"` is a substring of `"the batman"` after
trimming and case-folding and the two are not equal, yet the score is
`1.0`, which is neither `0.85` nor `0.90` and outside the claimed range
`0.85`-`0.90`. -/
theorem C1_containment_counterexample :
    isSubstringOf (lowerStrip (lc "Batman")) (lowerStrip (lc "The Batman")) = true ∧
    lowerStrip (lc "The Batman") ≠ lowerStrip (lc "Batman") ∧
    matchScore (lc "The Batman") (lc "Batman") = 1 ∧
    ¬(matchScore (lc "The Batman") (lc "Batman") = 17 / 20 ∨
      matchScore (lc "The Batman") (lc "Batman") = 9 / 10) ∧
    ¬(17 / 20 ≤ matchScore (lc "The Batman") (lc "Batman") ∧
      matchScore (lc "The Batman") (lc "Batman") ≤ 9 / 10) := by
  have h : matchScore (lc "The Batman") (lc "Batman") = 1 := by decide
  refine ⟨by decide, by decide, h, ?_, ?_⟩
  · rw [h]; norm_num
  · rw [h]; norm_num

/-- Claim C1 (amended): there is no containment branch; a pair that is
not equal after case-folding and trimming is always scored by the fuzzy
maximum, whether or not one string contains the other, and
`score("The Batman", "Batman")` is `1.0` (above the `0.6` threshold),
reached through the article-stripped measure. -/
theorem C1_no_containment_branch :
    (∀ t c : List Char, lowerStrip t ≠ lowerStrip c →
      matchScore t c = advanced_title_matching t c) ∧
    matchScore (lc "The Batman") (lc "Batman") = 1 ∧
    ratioQ (remove_articles (normalize_title (lc "The Batman")))
      (remove_articles (normalize_title (lc "Batman"))) = 1 ∧
    (3 / 5 : ℚ) < matchScore (lc "The Batman") (lc "Batman") := by
  have h : matchScore (lc "The Batman") (lc "Batman") = 1 := by decide
  exact ⟨fun _ _ h => matchScore_neKey h, h, by decide, by rw [h]; norm_num⟩

/-- Witness for the amended C1 at a concrete containment pair. -/
theorem C1_no_containment_branch_witness :
    matchScore (lc "Warfare") (lc "Warfare - Sottozero") =
      advanced_title_matching (lc "Warfare") (lc "Warfare - Sottozero") :=
  C1_no_containment_branch.1 _ _ (by decide)

/-- Claim C8 (refuted): the claim's own required inequality fails.  After
trimming and case-folding, `"dune"` is a strict substring of
`"dune part two"`, yet `score("Dune", "Dune Part Two")` equals
`score("Dune Part Two", "Dune")` because the code has no asymmetric
containment branch. -/
theorem C8_symmetry_counterexample :
    isSubstringOf (lowerStrip (lc "Dune")) (lowerStrip (lc "Dune Part Two")) = true ∧
    lowerStrip (lc "Dune") ≠ lowerStrip (lc "Dune Part Two") ∧
    matchScore (lc "Dune") (lc "Dune Part Two") =
      matchScore (lc "Dune Part Two") (lc "Dune") := by
  decide

/-- Claim C8 (amended): the exact branch is symmetric, but the fuzzy
branch is not symmetric in general (the sequence-matching ratio depends
on the argument order: `score("abcd", "cdabed") = 3/5` while
`score("cdabed", "abcd") = 2/5`, although neither is a substring of the
other), and the containment pair of the claim scores equally in both
directions. -/
theorem C8_symmetry_amended :
    (∀ a b : List Char, lowerStrip a = lowerStrip b →
      matchScore a b = matchScore b a) ∧
    (isSubstringOf (lowerStrip (lc "abcd")) (lowerStrip (lc "cdabed")) = false ∧
      isSubstringOf (lowerStrip (lc "cdabed")) (lowerStrip (lc "abcd")) = false ∧
      matchScore (lc "abcd") (lc "cdabed") ≠ matchScore (lc "cdabed") (lc "abcd")) ∧
    matchScore (lc "Dune") (lc "Dune Part Two") =
      matchScore (lc "Dune Part Two") (lc "Dune") :=
  ⟨fun _ _ h => by rw [matchScore_eqKey h, matchScore_eqKey h.symm],
    by decide, by decide⟩

/-- Witness for the amended C8 at a concrete exact-branch pair. -/
theorem C8_symmetry_amended_witness :
    matchScore (lc "Dune") (lc "dune") = matchScore (lc "dune") (lc "Dune") :=
  C8_symmetry_amended.1 _ _ (by decide)

/-- Claim C10 (confirmed): when both normalized forms are empty the fuzzy
score is `1.0`, and since the length check of `find_matches` uses the raw
variant string, a whitespace-only watchlist title of raw length `3`
produces a full-score match against a punctuation-only listing. -/
theorem C10_empty_normalized_full_score :
    (∀ t1 t2 : List Char, normalize_title t1 = [] → normalize_title t2 = [] →
      advanced_title_matching t1 t2 = 1) ∧
    (lc "   ").length = 3 ∧ pyStrip (lc "   ") = [] ∧
    bestMatch ⟨lc "   ", []⟩ [lc "---"] = some ((lc "   ", lc "---"), 1) := by
  refine ⟨?_, by decide, by decide, by decide⟩
  intro t1 t2 h1 h2
  unfold advanced_title_matching
  rw [h1, h2]
  decide

/-- Witness for C10 at two concrete punctuation-only titles. -/
theorem C10_empty_normalized_full_score_witness :
    normalize_title (lc "...") = [] ∧ normalize_title (lc "!!!") = [] ∧
    advanced_title_matching (lc "...") (lc "!!!") = 1 :=
  ⟨by decide, by decide,
    C10_empty_normalized_full_score.1 _ _ (by decide) (by decide)⟩

/-- Claim C4 (confirmed): for every watchlist entry and cinema listing
sequence, `find_matches` keeps at most one result for the entry: when no
scored pair beats the `0.6` threshold the entry is absent, and otherwise
the kept pair is the first pair (in iteration order: listings outer,
variants inner, short variants skipped) attaining the maximum score over
all scored pairs. -/
theorem C4_best_match_selection (e : WatchlistFilm) (cinema_films : List (List Char)) :
    (find_matches [e] cinema_films).length ≤ 1 ∧
    ((bestMatch e cinema_films = none ∧ find_matches [e] cinema_films = [] ∧
        ∀ q ∈ scoredPairs e cinema_films, matchScore q.1 q.2 ≤ mkRat 3 5) ∨
      (∃ p l1 l2, scoredPairs e cinema_films = l1 ++ p :: l2 ∧
        bestMatch e cinema_films = some (p, matchScore p.1 p.2) ∧
        find_matches [e] cinema_films = [(e, (p, matchScore p.1 p.2))] ∧
        mkRat 3 5 < matchScore p.1 p.2 ∧
        (∀ q ∈ scoredPairs e cinema_films, matchScore q.1 q.2 ≤ matchScore p.1 p.2) ∧
        (∀ q ∈ l1, matchScore q.1 q.2 < matchScore p.1 p.2))) := by
  constructor
  · rw [find_matches_singleton]
    cases bestMatch e cinema_films <;> simp
  · rcases foldl_stepPair_characterization (scoredPairs e cinema_films) with
      ⟨hn, hall⟩ | ⟨p, l1, l2, hsplit, hsome, h35, hmax, hfirst⟩
    · have hb : bestMatch e cinema_films = none := by
        rw [bestMatch_eq_foldl]
        exact hn
      exact Or.inl ⟨hb, by rw [find_matches_singleton, hb], hall⟩
    · have hb : bestMatch e cinema_films = some (p, matchScore p.1 p.2) := by
        rw [bestMatch_eq_foldl]
        exact hsome
      exact Or.inr ⟨p, l1, l2, hsplit, hb, by rw [find_matches_singleton, hb],
        h35, hmax, hfirst⟩

/-- Witness for C4 on the concrete scenario of the specification. -/
theorem C4_best_match_selection_witness :
    (find_matches [⟨lc "Warfare", []⟩]
      [lc "Warfare", lc "Warfare - Sottozero", lc "Roses"]).length ≤ 1 :=
  (C4_best_match_selection _ _).1

/-- Claim C7 (amended): the skip applies to the raw variant string, not
the trimmed one: a kept match always has a non-empty matched variant of
raw length at least 3, an entry all of whose variants have raw length
below 3 yields no result, but a whitespace-padded variant whose trimmed
length is below 3 can still be scored and match. -/
theorem C7_raw_length_skip :
    (∀ (e : WatchlistFilm) (cinema_films : List (List Char))
        (p : List Char × List Char) (s : ℚ),
      bestMatch e cinema_films = some (p, s) → p.1 ≠ [] ∧ 3 ≤ p.1.length) ∧
    (∀ (e : WatchlistFilm) (cinema_films : List (List Char)),
      (∀ t ∈ titlesToCheck e, t.length < 3) → bestMatch e cinema_films = none) ∧
    bestMatch ⟨lc "  a  ", []⟩ [lc "a"] = some ((lc "  a  ", lc "a"), 1) := by
  refine ⟨?_, ?_, by decide⟩
  · intro e cs p s h
    rcases foldl_stepPair_characterization (scoredPairs e cs) with
      ⟨hn, _⟩ | ⟨p0, l1, l2, hsplit, hsome, _, _, _⟩
    · rw [bestMatch_eq_foldl, hn] at h
      cases h
    · rw [bestMatch_eq_foldl, hsome] at h
      have hp0p : p0 = p := congrArg Prod.fst (Option.some.inj h)
      have hp0 : p0 ∈ scoredPairs e cs := by
        rw [hsplit]
        exact List.mem_append.2 (Or.inr (List.mem_cons_self _ _))
      simp only [scoredPairs, List.mem_flatten, List.mem_map] at hp0
      obtain ⟨gl, ⟨c, _, rfl⟩, hin⟩ := hp0
      obtain ⟨t, ht, hpt⟩ := List.mem_map.1 hin
      have hprop := (List.mem_filter.1 ht).2
      rw [decide_eq_true_eq] at hprop
      have ht1 : p.1 = t := by
        rw [← hp0p, ← hpt]
      rw [ht1]
      exact ⟨fun hh => hprop (Or.inl hh), not_lt.1 fun hh => hprop (Or.inr hh)⟩
  · intro e cs hshort
    have hfil : (titlesToCheck e).filter
        (fun t => decide (¬(t = [] ∨ t.length < 3))) = [] := by
      rw [List.filter_eq_nil_iff]
      intro t ht
      simp [hshort t ht]
    have hnil : scoredPairs e cs = [] := by
      simp [scoredPairs, hfil]
      exact fun _ _ t ht _ => hshort t ht
    rw [bestMatch_eq_foldl, hnil]
    rfl

/-- Witness for the amended C7: the general part applied at a concrete
entry whose variant is kept. -/
theorem C7_raw_length_skip_witness :
    lc "  a  " ≠ [] ∧ 3 ≤ (lc "  a  ").length :=
  C7_raw_length_skip.1 ⟨lc "  a  ", []⟩ [lc "a"] (lc "  a  ", lc "a") 1 (by decide)

/-- Claim C5 (refuted): the code trims before stripping punctuation and
never after, so punctuation adjacent to an end can leave a boundary
space: `normalize_title("ab .")` is `"ab "`, while the claimed pipeline
(trim last) yields `"ab"`. -/
theorem C5_normalization_counterexample :
    normalize_title (lc "ab .") = lc "ab " ∧
    claimNormalize (lc "ab .") = lc "ab" ∧
    normalize_title (lc "ab .") ≠ claimNormalize (lc "ab .") := by
  decide

/-- Claim C6 (refuted): `remove_articles` removes stop-list tokens
wherever they occur, not only in leading position, so the article-stripped
measure differs from the claimed leading-only measure: for
`"War of the Worlds"` versus `"War of Worlds"` the code's measure is `1`
while the leading-only measure is `13/15`. -/
theorem C6_leading_article_counterexample :
    remove_articles (normalize_title (lc "War of the Worlds")) = lc "war of worlds" ∧
    removeLeadingArticles (normalize_title (lc "War of the Worlds")) =
      lc "war of the worlds" ∧
    ratioQ (remove_articles (normalize_title (lc "War of the Worlds")))
      (remove_articles (normalize_title (lc "War of Worlds"))) = 1 ∧
    ratioQ (removeLeadingArticles (normalize_title (lc "War of the Worlds")))
      (removeLeadingArticles (normalize_title (lc "War of Worlds"))) = 13 / 15 := by
  have h : ratioQ (removeLeadingArticles (normalize_title (lc "War of the Worlds")))
      (removeLeadingArticles (normalize_title (lc "War of Worlds"))) = mkRat 13 15 := by
    decide
  refine ⟨by decide, by decide, by decide, ?_⟩
  rw [h]
  norm_num [Rat.mkRat_eq_div]

/-- Claim C5 (amended): the normalization pipeline is lower-casing,
trimming the ends, stripping punctuation, then collapsing whitespace runs
— the trim comes before punctuation stripping, not after it as claimed,
and nothing trims the result, so a single boundary space can remain
(e.g. `normalize_title("ab .") = "ab "`).  Trimming the code's result
recovers exactly the claimed pipeline. -/
theorem C5_trim_before_punctuation :
    (∀ t : List Char, claimNormalize t = pyStrip (normalize_title t)) ∧
    normalize_title (lc "ab .") = lc "ab " := by
  constructor
  · intro t
    unfold claimNormalize normalize_title
    rw [pyStrip_collapseWs, pyStrip_collapseWs, pySplit_removePunct_pyStrip]
  · decide

/-- `specRemoveTokens` is the filter that `remove_articles` performs. -/
theorem specRemoveTokens_eq_filter (l : List (List Char)) :
    specRemoveTokens l = l.filter (fun w => decide (w ∉ articles)) := by
  induction l with
  | nil => rfl
  | cons w ws ih =>
    unfold specRemoveTokens
    by_cases h : w ∈ articles
    · rw [if_pos h, ih, List.filter_cons, if_neg (by simp [h])]
    · rw [if_neg h, ih, List.filter_cons, if_pos (by simp [h])]

/-- Claim C6 (amended): the article-stripped measure equals the ratio
after removing the stop-list tokens wherever they occur as standalone
tokens — not only in leading position — from both normalized strings. -/
theorem C6_articles_removed_anywhere :
    (∀ t1 t2 : List Char,
      advanced_title_matching t1 t2 =
        pyMax (ratioQ (normalize_title t1) (normalize_title t2))
          (pyMax
            (ratioQ (joinSpace (specRemoveTokens (pySplit (normalize_title t1))))
              (joinSpace (specRemoveTokens (pySplit (normalize_title t2)))))
            (keyword_matching (normalize_title t1) (normalize_title t2)))) ∧
    remove_articles (lc "war of the worlds") = lc "war of worlds" := by
  constructor
  · intro t1 t2
    unfold advanced_title_matching remove_articles
    rw [specRemoveTokens_eq_filter, specRemoveTokens_eq_filter]
  · decide

/-- Claim C7 (refuted): the skip check uses the raw variant length, not
the trimmed length.  `"  a  "` trims to a single character yet is scored
and matches `"a"` exactly, and a whitespace-only title of raw length 3
(empty after trimming) produces a match, contradicting scenario D. -/
theorem C7_trim_skip_counterexample :
    (pyStrip (lc "  a  ")).length ≤ 2 ∧
    bestMatch ⟨lc "  a  ", []⟩ [lc "a"] = some ((lc "  a  ", lc "a"), 1) ∧
    pyStrip (lc "   ") = [] ∧
    find_matches [⟨lc "   ", []⟩] [lc "---"] =
      [(⟨lc "   ", []⟩, ((lc "   ", lc "---"), 1))] := by
  decide

end CinemaChecker
